import Mathlib

/-!
Verification of the setpso particle-swarm core.

This file is a shallow embedding, in Lean, of the parts of the `setpso`
repository that the verified properties talk about:

* the probabilistic-OR ("pseudo add") combinator and the velocity blur
  (`Pso.BlurTarget`, `Pso.addToTempVel`);
* the mutation-sampling loop at the end of `Pso.PUpdate`;
* the statistical cost value `futil.SFloatCostValue` with its `Set`,
  `Update` and `Cmp` operations, and the sigma-margin scaling applied by
  `futil.SFloatFunStub.Cmp`;
* the trial-list bookkeeping `Particle.putOntoTryList`,
  `Particle.removeWorstTry` and `Particle.lookForBetterTry`;
* the commit step `Pso.SetParams`;
* the group bookkeeping `Pso.UpdateGroup`, `Pso.UpdateGlobal` and
  `Pso.MoveTo`.

Go `float64` arithmetic is modelled by exact rational arithmetic (`ℚ`),
except for the algebraic facts about the pseudo-add combinator, which the
design states over real numbers in `[0,1]` and which are proved over `ℝ`.
Go `big.Int` bit vectors are modelled by `ℕ`, slices by `List`, and the
`-1` sentinel indices of the Go code by `Option`.  Methods that mutate
their receiver are modelled as functions returning the updated value.
-/

namespace Setpso

/-- The probabilistic-OR combinator.  Every velocity update in the source
(`Pso.BlurTarget`, `Pso.setTempVel`/`addToTempVel`/`addToVel`, and the
inertia combination inside `Pso.PUpdate`) advances a component `x` toward 1
by the expression `x*(1-p) + p`, which equals `x + p - x*p`. -/
def pseudoAdd (x p : ℝ) : ℝ := x * (1 - p) + p

/-- Embedding of `Pso.addToTempVel`: pseudo-add `prob` into the components
of the scratch velocity whose bit is set in `z`. -/
def addToTempVel (z : ℕ) (prob : ℝ) (tempVel : ℕ → ℝ) : ℕ → ℝ :=
  fun i => if z.testBit i then pseudoAdd (tempVel i) prob else tempVel i

/-- Embedding of the conditional `SetBit` pair in the mutation-sampling
loop of `Pso.PUpdate`: set bit `j` of `h` to 1 when it is 0 and to 0 when
it is 1 (that is, flip it). -/
def flipBit (h j : ℕ) : ℕ := if h.testBit j then h - 2 ^ j else h + 2 ^ j

/-- One step of the mutation-sampling loop of `Pso.PUpdate` for bit `jv`:
if the uniform draw `r jv` is below the velocity component, zero that
component and flip the bit of the hint. -/
def mutStep (r : ℕ → ℚ) (st : (ℕ → ℚ) × ℕ) (jv : ℕ) : (ℕ → ℚ) × ℕ :=
  if r jv < st.1 jv then (Function.update st.1 jv 0, flipBit st.2 jv) else st

/-- The whole mutation-sampling pass of `Pso.PUpdate` over bits
`0 .. n-1`, starting from velocity `vel` and hint `h` (a copy of the
current parameter).  `r` is the stream of uniform draws, indexed by bit. -/
def mutPass (r : ℕ → ℚ) (vel : ℕ → ℚ) (h : ℕ) (n : ℕ) : (ℕ → ℚ) × ℕ :=
  (List.range n).foldl (mutStep r) (vel, h)

/-- C9: the pseudo-add operator `P(p,q) = p+q-p·q` used by the velocity
updates is commutative, associative, closed on `[0,1]`, dominates `max`,
and maps `(0.5, 0.5)` to `0.75`. -/
theorem pseudoAdd_algebra (p q r : ℝ)
    (hp0 : 0 ≤ p) (hp1 : p ≤ 1) (hq0 : 0 ≤ q) (hq1 : q ≤ 1)
    (hr0 : 0 ≤ r) (hr1 : r ≤ 1) :
    pseudoAdd p q = p + q - p * q ∧
    pseudoAdd p q = pseudoAdd q p ∧
    pseudoAdd (pseudoAdd p q) r = pseudoAdd p (pseudoAdd q r) ∧
    (0 ≤ pseudoAdd p q ∧ pseudoAdd p q ≤ 1) ∧
    max p q ≤ pseudoAdd p q ∧
    pseudoAdd (1/2) (1/2) = 3/4 := by
  unfold pseudoAdd
  refine ⟨by ring, by ring, by ring, ⟨by nlinarith, by nlinarith⟩, ?_, by norm_num⟩
  have hpq : p ≤ p * (1 - q) + q := by nlinarith
  have hqq : q ≤ p * (1 - q) + q := by nlinarith
  exact max_le hpq hqq

/-- Witness for C9 at `p = q = r = 1/2`. -/
theorem pseudoAdd_algebra_witness :
    pseudoAdd (1/2) (1/2) = (1/2) + (1/2) - (1/2) * (1/2) ∧
    max (1/2 : ℝ) (1/2) ≤ pseudoAdd (1/2) (1/2) := by
  have h := pseudoAdd_algebra (1/2) (1/2) (1/2)
    (by norm_num) (by norm_num) (by norm_num) (by norm_num) (by norm_num) (by norm_num)
  exact ⟨h.1, h.2.2.2.2.1⟩

/-- Embedding of `futil.CmpMode`. -/
inductive CmpMode
  | CostMode
  | TriesMode
deriving DecidableEq

/-- Embedding of `futil.SFloatCostValue`: a statistically costed value with
an exponentially smoothed mean and exponentially decayed comparison /
success accumulators. -/
structure SFloatCostValue where
  mean : ℚ
  alpha : ℚ
  costSum : ℚ
  updateSum : ℚ
  compSum : ℚ
  compSuccessSum : ℚ
  epsilon : ℚ
  Tc : ℚ
deriving DecidableEq

/-- Embedding of `futil.NewSFloatCostValue`: all fields zero except the
time constant and the remembering gain `alpha = 1 - 1/Tc`. -/
def newSFloatCostValue (Tc : ℚ) : SFloatCostValue :=
  { mean := 0, alpha := 1 - 1 / Tc, costSum := 0, updateSum := 0,
    compSum := 0, compSuccessSum := 0, epsilon := 0, Tc := Tc }

/-- Embedding of `SFloatCostValue.Set`. -/
def SFloatCostValue.set (c : SFloatCostValue) (x : ℚ) : SFloatCostValue :=
  { c with mean := x, updateSum := 1 }

/-- Embedding of `SFloatCostValue.Update`: decay both running sums, add the
fresh measurement, recompute the smoothed mean. -/
def SFloatCostValue.update (c : SFloatCostValue) (x : ℚ) : SFloatCostValue :=
  let updateSum := c.alpha * c.updateSum + 1
  let costSum := c.alpha * c.costSum + x
  { c with updateSum := updateSum, costSum := costSum, mean := costSum / updateSum }

/-- Embedding of `SFloatCostValue.Cmp`.  The Go method mutates its receiver
`c` (`c1` is only read through its mean); here the updated receiver is
returned together with the comparison result.  `d` is `c1.mean - c.mean`.
In `CostMode` the accumulated tries history of the receiver is wiped and a
`±0.5` direction signal is returned; in `TriesMode` the comparison
accumulator is decayed and incremented, the success accumulator is decayed
and incremented only when `d > 0`, and the sequential score
`s = compSum·ε²/(1/4-ε²)` is returned with the sign of `ε`. -/
def SFloatCostValue.cmp (c c1 : SFloatCostValue) (mode : CmpMode) :
    SFloatCostValue × ℚ :=
  let d := c1.mean - c.mean
  match mode with
  | .CostMode =>
      ({ c with compSum := 0, compSuccessSum := 0 },
       if 0 < d then 1/2 else -(1/2))
  | .TriesMode =>
      let compSum := c.alpha * c.compSum + 1
      let compSuccessSum :=
        if 0 < d then c.alpha * c.compSuccessSum + 1 else c.compSuccessSum
      let epsilon := 1/2 * (2 * compSuccessSum - compSum) / (compSum + 2)
      let s := compSum * (epsilon * epsilon) / (1/4 - epsilon * epsilon)
      ({ c with compSum := compSum, compSuccessSum := compSuccessSum,
                epsilon := epsilon },
       if 0 ≤ epsilon then s else -s)

/-- Embedding of the `TriesMode` branch of `futil.SFloatFunStub.Cmp`:
`Cmp(x, y, TriesMode)` runs the cost comparison with `y`'s cost value as
receiver and divides the raw score by the stored squared sigma margin
(`NewSFloatFunStub` stores `SigmaMargin * SigmaMargin`). -/
def stubCmpTries (sigmaMargin2 : ℚ) (x y : SFloatCostValue) :
    SFloatCostValue × ℚ :=
  let r := y.cmp x .TriesMode
  (r.1, r.2 / sigmaMargin2)

/-- C7 (amended): comparing a statistical cost value with an exact copy of
itself yields `-0.5` in `CostMode` (a limited-certainty signal, never the
deterministic `±1`), and, when the comparison accumulators are clear (as
after creation or after any `CostMode` comparison), `-1/8` in `TriesMode`,
strictly inside the inconclusive band `(-1, 1)`. -/
theorem selfCmp_bounded (c : SFloatCostValue)
    (h1 : c.compSum = 0) (h2 : c.compSuccessSum = 0) :
    (c.cmp c .CostMode).2 = -(1/2) ∧
    (c.cmp c .TriesMode).2 = -(1/8) ∧
    |(c.cmp c .TriesMode).2| < 1 := by
  have hd : c.mean - c.mean = 0 := by ring
  refine ⟨?_, ?_, ?_⟩
  · simp [SFloatCostValue.cmp, hd]
  · simp [SFloatCostValue.cmp, hd, h1, h2]
    norm_num
  · simp [SFloatCostValue.cmp, hd, h1, h2]
    rw [abs_lt]
    constructor <;> norm_num

/-- Witness for C7 (amended) at a freshly created cost value. -/
theorem selfCmp_bounded_witness :
    ((newSFloatCostValue 100).cmp (newSFloatCostValue 100) .CostMode).2 = -(1/2) ∧
    ((newSFloatCostValue 100).cmp (newSFloatCostValue 100) .TriesMode).2 = -(1/8) := by
  have h := selfCmp_bounded (newSFloatCostValue 100) (by rfl) (by rfl)
  exact ⟨h.1, h.2.1⟩

/-- C7 counterexample: the claim fails as stated.  After two `TriesMode`
self-comparisons of a value created with `Tc = 10` (each one comparing the
value with an exact, field-for-field copy of itself), a third self
comparison returns a score below `-1`, the hard "remove this candidate"
signal of the `Cmp` contract — not an "indistinguishable" result. -/
theorem selfCmp_hard_signal :
    (let c0 : SFloatCostValue := (newSFloatCostValue 10).set 5
     let c1 : SFloatCostValue := (c0.cmp c0 .TriesMode).1
     let c2 : SFloatCostValue := (c1.cmp c1 .TriesMode).1
     (c2.cmp c2 .TriesMode).2 < -1) := by
  norm_num [newSFloatCostValue, SFloatCostValue.set, SFloatCostValue.cmp]

section TryList

variable {α : Type}

/-- The scan inside `Particle.removeWorstTry`: walk the try list computing
`pso.fun.Cmp(bestTry, tries[i], TriesMode)` for each entry and keep the
index of the strictly smallest result.  In the Go code `j` starts at `-1`
and `worstResult` at `math.MaxFloat64`; the never-assigned start state is
modelled by a `none` accumulator (every real score is below
`MaxFloat64`).  The in-place update of each try's comparison statistics
does not influence the selection (each try's score depends only on its own
prior state and the personal best's mean), so the score is modelled as a
pure function of the try. -/
def worstScan (score : α → ℚ) : List α → ℕ → Option (ℕ × ℚ) → Option (ℕ × ℚ)
  | [], _, acc => acc
  | x :: xs, i, acc =>
      let s := score x
      let acc1 :=
        match acc with
        | none => some (i, s)
        | some (j, w) => if s < w then some (i, s) else some (j, w)
      worstScan score xs (i + 1) acc1

/-- Embedding of `Particle.removeWorstTry`: erase the entry found by the
scan (no erasure when the list was empty and `j` stayed `-1`). -/
def removeWorstTry (score : α → ℚ) (tries : List α) : List α :=
  match worstScan score tries 0 none with
  | none => tries
  | some (j, _) => tries.eraseIdx j

/-- Embedding of `Particle.putOntoTryList`: append a copy of the candidate
and drop the worst-scoring try when the list now exceeds the `NTries`
heuristic. -/
def putOntoTryList (score : α → ℚ) (nTries : ℕ) (tries : List α) (t : α) :
    List α :=
  if nTries < (tries ++ [t]).length then removeWorstTry score (tries ++ [t])
  else tries ++ [t]

/-- The scan inside `Particle.lookForBetterTry`: `j` starts at `-1`
(modelled `none`) and `betterResult` at `0.0`; a strictly larger score
replaces the pair. -/
def bestScan (score : α → ℚ) : List α → ℕ → Option ℕ × ℚ → Option ℕ × ℚ
  | [], _, acc => acc
  | x :: xs, i, acc =>
      let s := score x
      let acc1 := if acc.2 < s then (some i, s) else acc
      bestScan score xs (i + 1) acc1

/-- Embedding of `Particle.lookForBetterTry`: when the best-scoring try
scores above `1.0`, copy it to the personal best and remove it from the
try list; otherwise leave both untouched.  Returns (personal best, try
list). -/
def lookForBetterTry (score : α → ℚ) (best : α) (tries : List α) :
    α × List α :=
  match bestScan score tries 0 (none, 0) with
  | (some j, br) =>
      if 1 < br then
        match tries.get? j with
        | some t => (t, tries.eraseIdx j)
        | none => (best, tries)
      else (best, tries)
  | (none, _) => (best, tries)

lemma worstScan_some (score : α → ℚ) :
    ∀ (l : List α) (i0 j0 : ℕ) (w0 : ℚ),
      ∃ j w, worstScan score l i0 (some (j0, w0)) = some (j, w) ∧ w ≤ w0 ∧
        (∀ k (hk : k < l.length), w ≤ score (l.get ⟨k, hk⟩)) ∧
        ((j = j0 ∧ w = w0) ∨
          ∃ k, ∃ hk : k < l.length, j = i0 + k ∧ w = score (l.get ⟨k, hk⟩)) := by
  intro l
  induction l with
  | nil =>
      intro i0 j0 w0
      exact ⟨j0, w0, rfl, le_refl _, fun k hk => absurd hk (by simp),
        Or.inl ⟨rfl, rfl⟩⟩
  | cons x xs ih =>
      intro i0 j0 w0
      by_cases hx : score x < w0
      · obtain ⟨j, w, heq, hle, hmin, hcase⟩ := ih (i0 + 1) i0 (score x)
        refine ⟨j, w, ?_, hle.trans hx.le, ?_, ?_⟩
        · simpa [worstScan, hx] using heq
        · intro k hk
          match k with
          | 0 => simpa using hle
          | k + 1 => simpa using hmin k (by simpa using hk)
        · rcases hcase with ⟨hj, hw⟩ | ⟨k, hk, hj, hw⟩
          · exact Or.inr ⟨0, by simp, by omega, by simpa using hw⟩
          · exact Or.inr ⟨k + 1, by simpa using Nat.succ_lt_succ hk,
              by omega, by simpa using hw⟩
      · obtain ⟨j, w, heq, hle, hmin, hcase⟩ := ih (i0 + 1) j0 w0
        refine ⟨j, w, ?_, hle, ?_, ?_⟩
        · simpa [worstScan, hx] using heq
        · intro k hk
          match k with
          | 0 => simpa using hle.trans (not_lt.mp hx)
          | k + 1 => simpa using hmin k (by simpa using hk)
        · rcases hcase with ⟨hj, hw⟩ | ⟨k, hk, hj, hw⟩
          · exact Or.inl ⟨hj, hw⟩
          · exact Or.inr ⟨k + 1, by simpa using Nat.succ_lt_succ hk,
              by omega, by simpa using hw⟩

lemma worstScan_from_head (score : α → ℚ) (x : α) (xs : List α) :
    ∃ j, ∃ hj : j < (x :: xs).length, ∃ w,
      worstScan score (x :: xs) 0 none = some (j, w) ∧
      w = score ((x :: xs).get ⟨j, hj⟩) ∧
      ∀ k (hk : k < (x :: xs).length), w ≤ score ((x :: xs).get ⟨k, hk⟩) := by
  obtain ⟨j, w, heq, hle, hmin, hcase⟩ := worstScan_some score xs 1 0 (score x)
  have hstep : worstScan score (x :: xs) 0 none =
      worstScan score xs 1 (some (0, score x)) := by
    simp [worstScan]
  rcases hcase with ⟨hj, hw⟩ | ⟨k, hk, hj, hw⟩
  · subst hj hw
    refine ⟨0, by simp, score x, by rw [hstep, heq], by simp, ?_⟩
    intro k hk
    match k with
    | 0 => simp
    | k + 1 => simpa using hmin k (by simpa using hk)
  · subst hj hw
    refine ⟨1 + k, by simp; omega, _, by rw [hstep, heq], ?_, ?_⟩
    · congr 1
      have h1k : 1 + k = k + 1 := by omega
      simp [h1k]
    · intro m hm
      match m with
      | 0 => simpa using hle
      | m + 1 => simpa using hmin m (by simpa using hm)

lemma removeWorstTry_spec (score : α → ℚ) (l : List α) (hne : l ≠ []) :
    ∃ j, ∃ hj : j < l.length,
      removeWorstTry score l = l.eraseIdx j ∧
      ∀ k (hk : k < l.length),
        score (l.get ⟨j, hj⟩) ≤ score (l.get ⟨k, hk⟩) := by
  obtain ⟨x, xs, rfl⟩ := List.exists_cons_of_ne_nil hne
  obtain ⟨j, hj, w, heq, hw, hmin⟩ := worstScan_from_head score x xs
  refine ⟨j, hj, ?_, ?_⟩
  · simp [removeWorstTry, heq]
  · intro k hk
    rw [← hw]
    exact hmin k hk

/-- C2: when the commit step pushes a candidate onto a try list that held
`NTries` entries, the resulting list again holds exactly `NTries` entries
and the removed entry is one whose sequential-comparison score against the
personal best is least among all `NTries + 1` candidates at eviction
time. -/
theorem putOntoTryList_evicts_worst (score : α → ℚ) (nTries : ℕ)
    (tries : List α) (t : α) (hlen : tries.length = nTries) :
    ∃ j, ∃ hj : j < (tries ++ [t]).length,
      putOntoTryList score nTries tries t = (tries ++ [t]).eraseIdx j ∧
      (putOntoTryList score nTries tries t).length = nTries ∧
      ∀ k (hk : k < (tries ++ [t]).length),
        score ((tries ++ [t]).get ⟨j, hj⟩) ≤
          score ((tries ++ [t]).get ⟨k, hk⟩) := by
  have hlen1 : (tries ++ [t]).length = nTries + 1 := by simp [hlen]
  have hif : nTries < (tries ++ [t]).length := by omega
  have hne : tries ++ [t] ≠ [] := by simp
  obtain ⟨j, hj, herase, hmin⟩ := removeWorstTry_spec score (tries ++ [t]) hne
  have hput : putOntoTryList score nTries tries t = removeWorstTry score (tries ++ [t]) := by
    simp only [putOntoTryList, if_pos hif]
  refine ⟨j, hj, by rw [hput, herase], ?_, hmin⟩
  have hj' : j < nTries + 1 := by omega
  rw [hput, herase, List.length_eraseIdx]
  simp [hlen1, hj']

/-- Witness for C2 with capacity 2, tries `[3, 1]` and new candidate `2`
(scored by the identity): the middle entry is evicted. -/
theorem putOntoTryList_evicts_worst_witness :
    ([(3 : ℚ), 1].length = 2) ∧
    (putOntoTryList (fun q => q) 2 [(3 : ℚ), 1] 2).length = 2 := by
  have h := putOntoTryList_evicts_worst (fun q : ℚ => q) 2 [(3 : ℚ), 1] 2 (by rfl)
  obtain ⟨j, hj, _, hcard, _⟩ := h
  exact ⟨rfl, hcard⟩

lemma bestScan_spec (score : α → ℚ) :
    ∀ (l : List α) (i0 : ℕ) (a : Option ℕ × ℚ),
      a.2 ≤ (bestScan score l i0 a).2 ∧
      (∀ k (hk : k < l.length), score (l.get ⟨k, hk⟩) ≤ (bestScan score l i0 a).2) ∧
      (bestScan score l i0 a = a ∨
        ∃ k, ∃ hk : k < l.length,
          bestScan score l i0 a = (some (i0 + k), score (l.get ⟨k, hk⟩))) := by
  intro l
  induction l with
  | nil =>
      intro i0 a
      exact ⟨le_refl _, fun k hk => absurd hk (by simp), Or.inl rfl⟩
  | cons x xs ih =>
      intro i0 a
      by_cases hx : a.2 < score x
      · have hstep : bestScan score (x :: xs) i0 a =
            bestScan score xs (i0 + 1) (some i0, score x) := by
          simp [bestScan, hx]
        obtain ⟨h1, h2, h3⟩ := ih (i0 + 1) (some i0, score x)
        rw [hstep]
        refine ⟨hx.le.trans h1, ?_, ?_⟩
        · intro k hk
          match k with
          | 0 => simpa using h1
          | k + 1 => simpa using h2 k (by simpa using hk)
        · rcases h3 with h | ⟨k, hk, h⟩
          · exact Or.inr ⟨0, by simp, by simpa using h⟩
          · have hidx : i0 + 1 + k = i0 + (k + 1) := by omega
            rw [hidx] at h
            refine Or.inr ⟨k + 1, by simpa using Nat.succ_lt_succ hk, ?_⟩
            have hget : ((x :: xs).get ⟨k + 1, by simpa using Nat.succ_lt_succ hk⟩) =
                xs.get ⟨k, hk⟩ := by simp
            rw [hget]
            exact h
      · have hstep : bestScan score (x :: xs) i0 a = bestScan score xs (i0 + 1) a := by
          simp [bestScan, hx]
        obtain ⟨h1, h2, h3⟩ := ih (i0 + 1) a
        rw [hstep]
        refine ⟨h1, ?_, ?_⟩
        · intro k hk
          match k with
          | 0 => simpa using (not_lt.mp hx).trans h1
          | k + 1 => simpa using h2 k (by simpa using hk)
        · rcases h3 with h | ⟨k, hk, h⟩
          · exact Or.inl h
          · have hidx : i0 + 1 + k = i0 + (k + 1) := by omega
            rw [hidx] at h
            refine Or.inr ⟨k + 1, by simpa using Nat.succ_lt_succ hk, ?_⟩
            have hget : ((x :: xs).get ⟨k + 1, by simpa using Nat.succ_lt_succ hk⟩) =
                xs.get ⟨k, hk⟩ := by simp
            rw [hget]
            exact h

lemma lookForBetterTry_promotes_iff (score : α → ℚ) (best : α) (tries : List α) :
    (lookForBetterTry score best tries).2.length < tries.length ↔
      ∃ t ∈ tries, 1 < score t := by
  obtain ⟨h1, h2, h3⟩ := bestScan_spec score tries 0 (none, 0)
  constructor
  · intro hlt
    by_contra hno
    push_neg at hno
    have hres : (lookForBetterTry score best tries).2 = tries := by
      unfold lookForBetterTry
      rcases h3 with h | ⟨k, hk, h⟩
      · rw [h]
      · rw [h]
        have hmem : tries.get ⟨k, hk⟩ ∈ tries := List.get_mem tries k hk
        have hle : score (tries.get ⟨k, hk⟩) ≤ 1 := hno _ hmem
        have hle2 : ¬ 1 < score tries[k] := by simpa using not_lt.mpr hle
        simp [hle2]
    rw [hres] at hlt
    exact lt_irrefl _ hlt
  · rintro ⟨t, ht, hscore⟩
    obtain ⟨n, hn⟩ := List.mem_iff_get.mp ht
    have hbig : 1 < (bestScan score tries 0 (none, 0)).2 := by
      have := h2 n.1 n.2
      rw [hn] at this
      exact lt_of_lt_of_le hscore (by simpa using this)
    rcases h3 with h | ⟨k, hk, h⟩
    · rw [h] at hbig
      norm_num at hbig
    · have hkk : (0 : ℕ) + k = k := by omega
      rw [hkk] at h
      have hbig1 : 1 < score (tries.get ⟨k, hk⟩) := by
        rw [h] at hbig
        simpa using hbig
      unfold lookForBetterTry
      rw [h]
      simp only [hbig1, if_true, List.get?_eq_get hk]
      rw [List.length_eraseIdx]
      simp only [hk, if_true]
      omega

/-- C3 (amended): in `TriesMode`, `SFloatCostValue.Cmp` decays and
increments the comparison accumulator; the success accumulator is decayed
and incremented only when the challenger's smoothed mean is better (on a
non-win it is left entirely unchanged — no forgetting is applied to it);
the score is `compSum·ε²/(1/4-ε²)` with
`ε = (2·compSuccessSum - compSum)/(2·(compSum+2))`, signed by the sign of
the accumulated `ε` (not by the current mean difference); the stub divides
the result by the squared sigma margin; and `lookForBetterTry` drops a try
from the list (promoting it to personal best) exactly when some try's
scaled score exceeds `+1`. -/
theorem seqCmp_score_and_promotion (c c1 b best : SFloatCostValue)
    (sigmaMargin2 : ℚ) (tries : List SFloatCostValue) :
    ((c.cmp c1 .TriesMode).1.compSum = c.alpha * c.compSum + 1) ∧
    ((c.cmp c1 .TriesMode).1.compSuccessSum =
      (if 0 < c1.mean - c.mean then c.alpha * c.compSuccessSum + 1
       else c.compSuccessSum)) ∧
    ((c.cmp c1 .TriesMode).1.epsilon =
      1/2 * (2 * (c.cmp c1 .TriesMode).1.compSuccessSum -
          (c.cmp c1 .TriesMode).1.compSum) /
        ((c.cmp c1 .TriesMode).1.compSum + 2)) ∧
    ((c.cmp c1 .TriesMode).2 =
      (if 0 ≤ (c.cmp c1 .TriesMode).1.epsilon then 1 else -1) *
        ((c.cmp c1 .TriesMode).1.compSum *
            ((c.cmp c1 .TriesMode).1.epsilon * (c.cmp c1 .TriesMode).1.epsilon) /
          (1/4 - (c.cmp c1 .TriesMode).1.epsilon * (c.cmp c1 .TriesMode).1.epsilon))) ∧
    ((stubCmpTries sigmaMargin2 b c).2 = (c.cmp b .TriesMode).2 / sigmaMargin2) ∧
    ((lookForBetterTry (fun t => (stubCmpTries sigmaMargin2 b t).2) best
        tries).2.length < tries.length ↔
      ∃ t ∈ tries, 1 < (stubCmpTries sigmaMargin2 b t).2) := by
  refine ⟨rfl, rfl, rfl, ?_, rfl, lookForBetterTry_promotes_iff _ best tries⟩
  simp only [SFloatCostValue.cmp]
  split_ifs <;> ring

/-- C3 counterexample: the claim fails as stated.  After one winning
comparison (`Tc = 2`, so `alpha = 1/2`), a comparison that the challenger
loses leaves the success accumulator at `1` instead of decaying it to
`alpha·1 = 1/2`, and the returned score is positive even though the
current mean difference is negative (the sign comes from the accumulated
`ε`, not from the direction of the mean difference). -/
theorem seqCmp_spec_deviation :
    (let cW : SFloatCostValue :=
       (((newSFloatCostValue 2).set 0).cmp ((newSFloatCostValue 2).set 1)
         .TriesMode).1
     let probe : SFloatCostValue := (newSFloatCostValue 2).set (-1)
     (cW.cmp probe .TriesMode).1.compSuccessSum ≠ cW.alpha * cW.compSuccessSum ∧
     probe.mean - cW.mean < 0 ∧
     0 < (cW.cmp probe .TriesMode).2) := by
  norm_num [newSFloatCostValue, SFloatCostValue.set, SFloatCostValue.cmp]

end TryList

/-- States of an `SFloatCostValue` reachable through the operations the
code performs on it: creation (`NewSFloatCostValue`, here restricted to
time constants `Tc ≥ 1`, so that the remembering gain `alpha = 1 - 1/Tc`
lies in `[0,1)`), `Set`, `Update`, and `Cmp` in either mode against any
comparand (`Copy` reproduces an existing state and needs no step). -/
inductive ReachableCV : SFloatCostValue → Prop
  | create (Tc : ℚ) (hTc : 1 ≤ Tc) : ReachableCV (newSFloatCostValue Tc)
  | setStep (c : SFloatCostValue) (x : ℚ) : ReachableCV c →
      ReachableCV (c.set x)
  | updateStep (c : SFloatCostValue) (x : ℚ) : ReachableCV c →
      ReachableCV (c.update x)
  | cmpStep (c c1 : SFloatCostValue) (m : CmpMode) : ReachableCV c →
      ReachableCV ((c.cmp c1 m).1)

lemma reachable_inv (c : SFloatCostValue) (hc : ReachableCV c) :
    0 ≤ c.alpha ∧ c.alpha < 1 ∧ 0 ≤ c.compSuccessSum ∧
    c.compSuccessSum ≤ c.compSum ∧ c.compSum * (1 - c.alpha) ≤ 1 := by
  induction hc with
  | create Tc hTc =>
      have hTc0 : (0 : ℚ) < Tc := by linarith
      have hinv : 1 / Tc ≤ 1 := by
        rw [div_le_one hTc0]
        exact hTc
      have hinv0 : 0 < 1 / Tc := by positivity
      rw [one_div] at hinv hinv0
      refine ⟨by simp [newSFloatCostValue]; linarith, by simp [newSFloatCostValue]; linarith,
        by simp [newSFloatCostValue], by simp [newSFloatCostValue], by simp [newSFloatCostValue]⟩
  | setStep c x h ih => simpa [SFloatCostValue.set] using ih
  | updateStep c x h ih => simpa [SFloatCostValue.update] using ih
  | cmpStep c c1 m h ih =>
      obtain ⟨ha0, ha1, hs0, hsc, hcap⟩ := ih
      cases m with
      | CostMode =>
          refine ⟨by simpa [SFloatCostValue.cmp] using ha0,
            by simpa [SFloatCostValue.cmp] using ha1,
            by simp [SFloatCostValue.cmp],
            by simp [SFloatCostValue.cmp],
            by simp [SFloatCostValue.cmp]⟩
      | TriesMode =>
          have hprod : c.alpha * (c.compSum * (1 - c.alpha)) ≤ c.alpha * 1 :=
            mul_le_mul_of_nonneg_left hcap ha0
          by_cases hd : 0 < c1.mean - c.mean
          · refine ⟨by simpa [SFloatCostValue.cmp] using ha0,
              by simpa [SFloatCostValue.cmp] using ha1, ?_, ?_, ?_⟩
            · simp only [SFloatCostValue.cmp, if_pos hd]
              nlinarith
            · simp only [SFloatCostValue.cmp, if_pos hd]
              nlinarith
            · simp only [SFloatCostValue.cmp]
              nlinarith
          · refine ⟨by simpa [SFloatCostValue.cmp] using ha0,
              by simpa [SFloatCostValue.cmp] using ha1, ?_, ?_, ?_⟩
            · simp only [SFloatCostValue.cmp, if_neg hd]
              nlinarith
            · simp only [SFloatCostValue.cmp, if_neg hd]
              nlinarith
            · simp only [SFloatCostValue.cmp]
              nlinarith

/-- C10 (amended): in every state reachable with creation time constants
`Tc ≥ 1`, the decayed success accumulator is nonnegative and never exceeds
the decayed comparison accumulator, and in every sequential (`TriesMode`)
comparison from such a state the computed epsilon satisfies `|ε| < 1/2`,
so the score denominator `1/4 - ε²` is strictly positive and the
comparison never divides by zero.  (For `Tc < 1` the gain `alpha` is
negative and all of this fails, see the counterexample.) -/
theorem reachable_stats_invariant (c : SFloatCostValue) (hc : ReachableCV c) :
    (0 ≤ c.compSuccessSum ∧ c.compSuccessSum ≤ c.compSum) ∧
    ∀ c1 : SFloatCostValue,
      |(c.cmp c1 .TriesMode).1.epsilon| < 1/2 ∧
      0 < 1/4 - (c.cmp c1 .TriesMode).1.epsilon *
          (c.cmp c1 .TriesMode).1.epsilon := by
  obtain ⟨_, _, hs0, hsc, _⟩ := reachable_inv c hc
  refine ⟨⟨hs0, hsc⟩, ?_⟩
  intro c1
  obtain ⟨_, _, hs0', hsc', _⟩ :=
    reachable_inv _ (ReachableCV.cmpStep c c1 .TriesMode hc)
  have heps : (c.cmp c1 .TriesMode).1.epsilon =
      1/2 * (2 * (c.cmp c1 .TriesMode).1.compSuccessSum -
        (c.cmp c1 .TriesMode).1.compSum) /
      ((c.cmp c1 .TriesMode).1.compSum + 2) := rfl
  have hC0 : 0 ≤ (c.cmp c1 .TriesMode).1.compSum := hs0'.trans hsc'
  have hC2 : (0 : ℚ) < (c.cmp c1 .TriesMode).1.compSum + 2 := by linarith
  have habs : |(c.cmp c1 .TriesMode).1.epsilon| < 1/2 := by
    rw [heps, abs_lt]
    constructor
    · rw [lt_div_iff hC2]
      nlinarith
    · rw [div_lt_iff hC2]
      nlinarith
  refine ⟨habs, ?_⟩
  have hbounds := abs_lt.mp habs
  nlinarith [hbounds.1, hbounds.2]

/-- Witness for C10 (amended) at a freshly created value with `Tc = 2`. -/
theorem reachable_stats_invariant_witness :
    0 ≤ (newSFloatCostValue 2).compSuccessSum ∧
    (newSFloatCostValue 2).compSuccessSum ≤ (newSFloatCostValue 2).compSum :=
  (reachable_stats_invariant _ (ReachableCV.create 2 (by norm_num))).1

/-- C10 counterexample: the claim fails as stated for states reachable
with `Tc < 1`.  With `Tc = 1/2` the gain is `alpha = -1`; after one losing
and one winning comparison, the success accumulator (1) exceeds the
comparison accumulator (0), epsilon reaches `1/2`, and the score
denominator `1/4 - ε²` is exactly zero: the code divides by zero. -/
theorem stats_invariant_fails_smallTc :
    (let c0 : SFloatCostValue := (newSFloatCostValue (1/2)).set 0
     let probeLose : SFloatCostValue := (newSFloatCostValue 1).set 0
     let probeWin : SFloatCostValue := (newSFloatCostValue 1).set 1
     let c1 : SFloatCostValue := (c0.cmp probeLose .TriesMode).1
     let c2 : SFloatCostValue := (c1.cmp probeWin .TriesMode).1
     c2.compSum < c2.compSuccessSum ∧
     1/4 - c2.epsilon * c2.epsilon = 0) := by
  norm_num [newSFloatCostValue, SFloatCostValue.set, SFloatCostValue.cmp]

/-- A group as far as the best-member bookkeeping is concerned: its member
particle ids and the cached best member (`-1`/undefined modelled as
`none`).  Particle ids index the swarm's particle array. -/
structure GroupM where
  members : List ℕ
  bestMember : Option ℕ
deriving DecidableEq

/-- Embedding of `Pso.UpdateGroup` for a fixed snapshot `cost` of the
particles' personal-best costs: with no members the best member becomes
undefined; otherwise start from `members[0]` and replace the running best
whenever `Cmp(best, candidate, CostMode) > 0`, which under the documented
deterministic-leaning contract holds exactly when the candidate's cost is
strictly lower. -/
def updateGroup (cost : ℕ → ℚ) (g : GroupM) : GroupM :=
  match g.members with
  | [] => { g with bestMember := none }
  | m :: _ =>
      { g with
        bestMember :=
          some (g.members.foldl (fun b i => if cost i < cost b then i else b) m) }

/-- Embedding of `Pso.UpdateGlobal`: refresh every group's best member,
then scan the groups, starting from particle 0, replacing the running
global best whenever a non-empty group's best member compares strictly
better.  The Go code iterates the group map in Go's (unspecified,
randomized) map order; here that order is the order of the input list, so
order-dependence can be analysed explicitly. -/
def updateGlobal (cost : ℕ → ℚ) (gs : List GroupM) : List GroupM × ℕ :=
  let gs1 := gs.map (updateGroup cost)
  let best := gs1.foldl
    (fun b g =>
      match g.bestMember with
      | some m => if cost m < cost b then m else b
      | none => b) 0
  (gs1, best)

/-- Embedding of the member-list surgery of `Pso.MoveTo` on the source
group: find the index `j` of the particle, shift all later members one
slot down, then truncate with `g0.members[:l]` — the length `l` of the
original slice, not `l-1`, so the list keeps its length.  (If the particle
is not a member, the Go code would panic with index `-1`; this embedding
is only used with `pat ∈ members`.) -/
def moveToDelete (members : List ℕ) (pat : ℕ) : List ℕ :=
  let j := members.findIdx (fun m => m == pat)
  let l := members.length
  members.mapIdx (fun k v => if j ≤ k ∧ k + 1 < l then members.getD (k + 1) v else v)

/-- Embedding of `Pso.MoveTo` restricted to the two member lists: the
(attempted) deletion from the source group and the append to the
destination group.  Returns (former group's members, destination group's
members). -/
def moveTo (g0mem gmem : List ℕ) (pat : ℕ) : List ℕ × List ℕ :=
  (moveToDelete g0mem pat, gmem ++ [pat])

/-- C1 (code bug): with root members `[0,1,2]`, moving particle 2 to an
empty group leaves the former member list entirely unchanged — still of
length 3 and still containing particle 2, which is now also a member of
the destination group; moving particle 1 yields `[0,2,2]`, again of
length 3, duplicating particle 2.  The claimed postcondition (former list
one element shorter and free of the moved particle) fails because the Go
code truncates with `g0.members[:l]` instead of `g0.members[:l-1]`. -/
theorem moveTo_keeps_stale_membership :
    moveTo [0, 1, 2] [] 2 = ([0, 1, 2], [2]) ∧
    (moveTo [0, 1, 2] [] 2).1.length = 3 ∧
    2 ∈ (moveTo [0, 1, 2] [] 2).1 ∧
    2 ∈ (moveTo [0, 1, 2] [] 2).2 ∧
    moveTo [0, 1, 2] [] 1 = ([0, 2, 2], [1]) := by
  refine ⟨?_, ?_, ?_, ?_, ?_⟩ <;> decide

lemma foldl_pick_le (cost : ℕ → ℚ) :
    ∀ (l : List ℕ) (b : ℕ),
      cost (l.foldl (fun b i => if cost i < cost b then i else b) b) ≤ cost b ∧
      ∀ m ∈ l, cost (l.foldl (fun b i => if cost i < cost b then i else b) b) ≤ cost m := by
  intro l
  induction l with
  | nil => exact fun b => ⟨le_refl _, by simp⟩
  | cons x xs ih =>
      intro b
      have hstep : cost (if cost x < cost b then x else b) ≤ cost b ∧
          cost (if cost x < cost b then x else b) ≤ cost x := by
        by_cases hx : cost x < cost b
        · simp [hx, hx.le]
        · simp [hx, not_lt.mp hx]
      obtain ⟨ih1, ih2⟩ := ih (if cost x < cost b then x else b)
      refine ⟨?_, ?_⟩
      · simpa [List.foldl_cons] using ih1.trans hstep.1
      · intro m hm
        rcases List.mem_cons.mp hm with rfl | hm
        · simpa [List.foldl_cons] using ih1.trans hstep.2
        · simpa [List.foldl_cons] using ih2 m hm

lemma foldl_pick_mem (cost : ℕ → ℚ) :
    ∀ (l : List ℕ) (b : ℕ),
      l.foldl (fun b i => if cost i < cost b then i else b) b = b ∨
      l.foldl (fun b i => if cost i < cost b then i else b) b ∈ l := by
  intro l
  induction l with
  | nil => exact fun b => Or.inl rfl
  | cons x xs ih =>
      intro b
      rcases ih (if cost x < cost b then x else b) with h | h
      · rw [List.foldl_cons, h]
        by_cases hx : cost x < cost b
        · exact Or.inr (by simp [hx])
        · exact Or.inl (by simp [hx])
      · exact Or.inr (List.mem_cons_of_mem x (by simpa [List.foldl_cons] using h))

lemma updateGroup_best_le (cost : ℕ → ℚ) (g : GroupM) (m : ℕ)
    (hm : m ∈ g.members) :
    ∃ bm, (updateGroup cost g).bestMember = some bm ∧ cost bm ≤ cost m := by
  rcases hmem : g.members with _ | ⟨x, xs⟩
  · rw [hmem] at hm
    simp at hm
  · rw [hmem] at hm
    refine ⟨(x :: xs).foldl (fun b i => if cost i < cost b then i else b) x,
      by simp [updateGroup, hmem], ?_⟩
    exact (foldl_pick_le cost (x :: xs) x).2 m hm

lemma globalFold_eq_filterMap (cost : ℕ → ℚ) :
    ∀ (gs : List GroupM) (b : ℕ),
      gs.foldl
        (fun b g =>
          match g.bestMember with
          | some m => if cost m < cost b then m else b
          | none => b) b =
      (gs.filterMap (fun g => g.bestMember)).foldl
        (fun b i => if cost i < cost b then i else b) b := by
  intro gs
  induction gs with
  | nil => intro b; rfl
  | cons g gs ih =>
      intro b
      rcases hg : g.bestMember with _ | m
      · simpa [List.foldl_cons, List.filterMap_cons, hg] using ih b
      · simpa [List.foldl_cons, List.filterMap_cons, hg] using
          ih (if cost m < cost b then m else b)

/-- C5 (amended): after `UpdateGlobal`, the recorded global best's
personal-best cost is less than or equal to the cost of every member of
every group (and of particle 0, the scan's start value), for a fixed
snapshot of all personal bests and the deterministic-leaning comparison.
(The tie-break between distinct equal-cost group bests is decided by the
group map's iteration order, which Go randomizes — see the
counterexample — so the claimed single documented deterministic winner
does not exist.) -/
theorem updateGlobal_cost_minimal (cost : ℕ → ℚ) (gs : List GroupM)
    (g : GroupM) (m : ℕ) (hg : g ∈ gs) (hm : m ∈ g.members) :
    cost (updateGlobal cost gs).2 ≤ cost m ∧
    cost (updateGlobal cost gs).2 ≤ cost 0 := by
  obtain ⟨bm, hbm, hle⟩ := updateGroup_best_le cost g m hm
  have hbmem : bm ∈ (gs.map (updateGroup cost)).filterMap (fun g => g.bestMember) :=
    List.mem_filterMap.mpr ⟨updateGroup cost g, List.mem_map_of_mem _ hg, hbm⟩
  have hfold := foldl_pick_le cost
    ((gs.map (updateGroup cost)).filterMap (fun g => g.bestMember)) 0
  have heq : (updateGlobal cost gs).2 =
      ((gs.map (updateGroup cost)).filterMap (fun g => g.bestMember)).foldl
        (fun b i => if cost i < cost b then i else b) 0 := by
    simp only [updateGlobal]
    exact globalFold_eq_filterMap cost (gs.map (updateGroup cost)) 0
  rw [heq]
  exact ⟨(hfold.2 bm hbmem).trans hle, hfold.1⟩

/-- Witness for C5 (amended): a two-group swarm with costs 5, 0, 7 for
particles 0, 1, 2. -/
theorem updateGlobal_cost_minimal_witness :
    (let cost : ℕ → ℚ := fun i => if i = 0 then 5 else if i = 1 then 0 else 7
     cost (updateGlobal cost [⟨[1], none⟩, ⟨[2], none⟩]).2 ≤ cost 2 ∧
     cost (updateGlobal cost [⟨[1], none⟩, ⟨[2], none⟩]).2 ≤ cost 0) := by
  intro cost
  exact updateGlobal_cost_minimal cost [⟨[1], none⟩, ⟨[2], none⟩] ⟨[2], none⟩ 2
    (by simp) (by simp)

/-- C5 counterexample: the claim fails as stated.  With particles 1 and 2
holding equal-cost personal bests in two different groups, the recorded
global best is whichever group the map iteration visits first: order
`[A, B]` records particle 1, order `[B, A]` records particle 2.  Both
scans run on the identical swarm state, so the winner is not a
deterministic, documented function of that state. -/
theorem updateGlobal_tie_order_dependent :
    (let cost : ℕ → ℚ := fun i => if i = 0 then 5 else 0
     let gA : GroupM := ⟨[1], none⟩
     let gB : GroupM := ⟨[2], none⟩
     (updateGlobal cost [gA, gB]).2 = 1 ∧
     (updateGlobal cost [gB, gA]).2 = 2 ∧ (1 : ℕ) ≠ 2) := by
  refine ⟨?_, ?_, by decide⟩ <;>
    norm_num [updateGlobal, updateGroup, List.foldl]

/-- C6 (amended): runs are reproducible only once the group-registry
enumeration order is pinned down.  For a fixed cost snapshot, the global
best computed by `UpdateGlobal` is independent of the enumeration order of
the group registry provided no two particles tie in cost; the engine
output is then a pure function of configuration and seed.  When ties
between distinct groups' bests exist, the winner — and hence the reported
best candidate — depends on Go's randomized map iteration order, so two
identically-configured, identically-seeded runs need not be bit-identical
(see the counterexample). -/
theorem updateGlobal_order_invariant (cost : ℕ → ℚ) (gs gs' : List GroupM)
    (hperm : gs.Perm gs')
    (hinj : ∀ a b : ℕ, cost a = cost b → a = b) :
    (updateGlobal cost gs).2 = (updateGlobal cost gs').2 := by
  have heq : ∀ hs : List GroupM, (updateGlobal cost hs).2 =
      ((hs.map (updateGroup cost)).filterMap (fun g => g.bestMember)).foldl
        (fun b i => if cost i < cost b then i else b) 0 := by
    intro hs
    simp only [updateGlobal]
    exact globalFold_eq_filterMap cost (hs.map (updateGroup cost)) 0
  rw [heq gs, heq gs']
  have hpl : ((gs.map (updateGroup cost)).filterMap (fun g => g.bestMember)).Perm
      ((gs'.map (updateGroup cost)).filterMap (fun g => g.bestMember)) :=
    (hperm.map (updateGroup cost)).filterMap _
  have h1 := foldl_pick_le cost
    ((gs.map (updateGroup cost)).filterMap (fun g => g.bestMember)) 0
  have h1' := foldl_pick_le cost
    ((gs'.map (updateGroup cost)).filterMap (fun g => g.bestMember)) 0
  have hm := foldl_pick_mem cost
    ((gs.map (updateGroup cost)).filterMap (fun g => g.bestMember)) 0
  have hm' := foldl_pick_mem cost
    ((gs'.map (updateGroup cost)).filterMap (fun g => g.bestMember)) 0
  have hle : cost (((gs.map (updateGroup cost)).filterMap (fun g => g.bestMember)).foldl
      (fun b i => if cost i < cost b then i else b) 0) ≤
      cost (((gs'.map (updateGroup cost)).filterMap (fun g => g.bestMember)).foldl
      (fun b i => if cost i < cost b then i else b) 0) := by
    rcases hm' with h0 | hmem
    · rw [h0]
      exact h1.1
    · exact h1.2 _ (hpl.mem_iff.mpr hmem)
  have hge : cost (((gs'.map (updateGroup cost)).filterMap (fun g => g.bestMember)).foldl
      (fun b i => if cost i < cost b then i else b) 0) ≤
      cost (((gs.map (updateGroup cost)).filterMap (fun g => g.bestMember)).foldl
      (fun b i => if cost i < cost b then i else b) 0) := by
    rcases hm with h0 | hmem
    · rw [h0]
      exact h1'.1
    · exact h1'.2 _ (hpl.mem_iff.mp hmem)
  exact hinj _ _ (le_antisymm hle hge)

/-- Witness for C6 (amended): swapping two tie-free groups does not change
the selected global best. -/
theorem updateGlobal_order_invariant_witness :
    (updateGlobal (fun i => (i : ℚ)) [⟨[1], none⟩, ⟨[2], none⟩]).2 =
    (updateGlobal (fun i => (i : ℚ)) [⟨[2], none⟩, ⟨[1], none⟩]).2 :=
  updateGlobal_order_invariant _ _ _ (List.Perm.swap _ _ _)
    (fun a b hab => Nat.cast_injective hab)

/-- C6 counterexample: the claim fails as stated.  Two runs on the same
swarm state (identical configuration and seed; the scan consumes no
randomness), differing only in the group map's enumeration order — which
Go randomizes between runs — record global-best particles with different
candidate bit patterns (5 versus 9) at equal cost, so the reported
best-candidate sequences are not bit-identical. -/
theorem runs_diverge_on_tie :
    (let cost : ℕ → ℚ := fun i => if i = 0 then 5 else 0
     let param : ℕ → ℕ := fun i => if i = 1 then 5 else if i = 2 then 9 else 0
     let gA : GroupM := ⟨[1], none⟩
     let gB : GroupM := ⟨[2], none⟩
     param (updateGlobal cost [gA, gB]).2 = 5 ∧
     param (updateGlobal cost [gB, gA]).2 = 9 ∧
     cost (updateGlobal cost [gA, gB]).2 =
       cost (updateGlobal cost [gB, gA]).2) := by
  refine ⟨?_, ?_, ?_⟩ <;> norm_num [updateGlobal, updateGroup, List.foldl]

lemma mutStep_preserves (r : ℕ → ℚ) (st : (ℕ → ℚ) × ℕ) (j i : ℕ)
    (hne : j ≠ i) : (mutStep r st j).1 i = st.1 i := by
  unfold mutStep
  split
  · exact Function.update_noteq (Ne.symm hne) 0 st.1
  · rfl

/-- C8: whenever the mutation-sampling pass of `PUpdate` flips bit `i`
(the draw `r i` fell below the velocity component at the moment bit `i`
was processed), the velocity component `i` is zero after every later
prefix of the pass, in particular at the end of the pass over that
particle. -/
theorem mutPass_flip_zeroes_vel (r : ℕ → ℚ) (vel : ℕ → ℚ) (h n i : ℕ)
    (hi : i < n)
    (hflip : r i < ((List.range i).foldl (mutStep r) (vel, h)).1 i) :
    (∀ m, i < m → m ≤ n →
      ((List.range m).foldl (mutStep r) (vel, h)).1 i = 0) ∧
    (mutPass r vel h n).1 i = 0 := by
  have hbase : ((List.range (i + 1)).foldl (mutStep r) (vel, h)).1 i = 0 := by
    rw [List.range_succ, List.foldl_append]
    simp only [List.foldl_cons, List.foldl_nil]
    rw [mutStep, if_pos hflip]
    exact Function.update_same i 0 _
  have hstep : ∀ m, i < m → ((List.range m).foldl (mutStep r) (vel, h)).1 i = 0 := by
    intro m
    induction m with
    | zero => omega
    | succ m ih =>
        intro him
        rcases Nat.lt_or_ge i m with hlt | hge
        · rw [List.range_succ, List.foldl_append]
          simp only [List.foldl_cons, List.foldl_nil]
          rw [mutStep_preserves r _ m i (by omega)]
          exact ih hlt
        · have hmi : m = i := by omega
          subst hmi
          exact hbase
  exact ⟨fun m him _ => hstep m him, hstep n hi⟩

/-- Witness for C8: two bits, velocity 1 everywhere, draws 0 everywhere:
bit 0 flips on the first step and its velocity is 0 after the pass. -/
theorem mutPass_flip_zeroes_vel_witness :
    (mutPass (fun _ => 0) (fun _ => 1) 0 2).1 0 = 0 :=
  (mutPass_flip_zeroes_vel (fun _ => 0) (fun _ => 1) 0 2 0 (by norm_num)
    (by norm_num [List.range_zero, List.foldl_nil])).2

section Commit

variable {α : Type}

/-- The per-particle state that `Pso.SetParams` manipulates: the current
try, the personal-best try, the list of stored tries, and the raw hint
produced by the mutation pass. -/
structure PState (α : Type) where
  current : α
  bestTry : α
  tries : List α
  hint : ℕ

/-- Embedding of `Pso.SetParams` for one particle, parameterized — like
the Go code, which works through the `Fun` interface — by the evaluator
operations: `updateCost` (recosting a try), `toConstraint` (repairing the
hint against the previous current try, `none` on failure), the
deterministic-leaning comparison `cmpCost`, the sequential try score
`score` (first argument the personal best), the promotion `threshold` and
the `nTries` capacity.  The personal best is recosted unconditionally
before the repair attempt; on repair failure nothing else happens; on
success the tries are recosted, a statistically better try may be promoted
(`lookForBetterTry`), and the repaired candidate is adopted or pushed onto
the try list according to the threshold comparison. -/
def setParams (updateCost : α → α) (toConstraint : α → ℕ → Option α)
    (cmpCost : α → α → ℚ) (score : α → α → ℚ)
    (threshold : ℚ) (nTries : ℕ) (p : PState α) : PState α :=
  let best0 := updateCost p.bestTry
  match toConstraint p.current p.hint with
  | none => { p with bestTry := best0 }
  | some cur =>
      let tries0 := p.tries.map updateCost
      let lb := lookForBetterTry (fun t => score best0 t) best0 tries0
      let compResult := cmpCost lb.1 cur
      if threshold < compResult then
        { current := cur, bestTry := cur, tries := lb.2, hint := p.hint }
      else if -threshold < compResult then
        { current := cur, bestTry := lb.1,
          tries := putOntoTryList (fun t => score lb.1 t) nTries lb.2 cur,
          hint := p.hint }
      else
        { current := cur, bestTry := lb.1, tries := lb.2, hint := p.hint }

/-- C4 (amended): when the repair fails, the commit step raises no error
and leaves the particle's current candidate, try list and hint untouched,
and the personal best's candidate parameter untouched; the personal best's
cost value, however, is still refreshed, because `SetParams` runs
`UpdateCost` on it before checking the repair result. -/
theorem setParams_failure_noop (updateCost : α → α)
    (toConstraint : α → ℕ → Option α) (cmpCost : α → α → ℚ)
    (score : α → α → ℚ) (threshold : ℚ) (nTries : ℕ)
    (paramOf : α → ℕ) (p : PState α)
    (hfail : toConstraint p.current p.hint = none)
    (hparam : ∀ t, paramOf (updateCost t) = paramOf t) :
    (setParams updateCost toConstraint cmpCost score threshold nTries p).current
        = p.current ∧
    (setParams updateCost toConstraint cmpCost score threshold nTries p).tries
        = p.tries ∧
    (setParams updateCost toConstraint cmpCost score threshold nTries p).hint
        = p.hint ∧
    (setParams updateCost toConstraint cmpCost score threshold nTries p).bestTry
        = updateCost p.bestTry ∧
    paramOf (setParams updateCost toConstraint cmpCost score threshold nTries
        p).bestTry = paramOf p.bestTry := by
  simp [setParams, hfail, hparam p.bestTry]

/-- Witness for C4 (amended) with an identity recosting on `ℕ`-tries and
an always-failing repair. -/
theorem setParams_failure_noop_witness :
    (setParams (fun t : ℕ => t) (fun _ _ => none) (fun _ _ => 0)
        (fun _ _ => 0) (99/100) 250 ⟨1, 2, [], 0⟩).current = 1 :=
  (setParams_failure_noop (fun t : ℕ => t) (fun _ _ => none) (fun _ _ => 0)
    (fun _ _ => 0) (99/100) 250 (fun t => t) ⟨1, 2, [], 0⟩ rfl
    (fun _ => rfl)).1

end Commit

/-- A statistically costed try: a candidate bit pattern with its
`SFloatCostValue` (the decoded data plays no role here). -/
structure STry where
  param : ℕ
  cost : SFloatCostValue
deriving DecidableEq

/-- Embedding of `futil.SFloatFunStub.UpdateCost`: fold a fresh
measurement of the try's cost into its smoothed cost value.  `costFn` is
the (here deterministic) measurement delivered by the wrapped cost
function. -/
def sfloatUpdateCost (costFn : ℕ → ℚ) (t : STry) : STry :=
  { t with cost := t.cost.update (costFn t.param) }

/-- C4 counterexample: the claim fails as stated.  With the statistical
evaluator (`Tc = 10`, measurement constantly 0) and a repair that fails,
the commit step still changes the personal best: its cost value's
effective update count moves from `1` to `19/10`, so the personal best is
not left untouched for that iteration. -/
theorem setParams_failure_touches_best :
    (let best : STry := ⟨0, (newSFloatCostValue 10).set 0⟩
     let p : PState STry := ⟨⟨0, (newSFloatCostValue 10).set 0⟩, best, [], 0⟩
     (setParams (sfloatUpdateCost (fun _ => 0)) (fun _ _ => none)
        (fun _ _ => 0) (fun _ _ => 0) (99/100) 250 p).bestTry.cost.updateSum
          = 19/10 ∧
     p.bestTry.cost.updateSum = 1 ∧ (19 : ℚ)/10 ≠ 1) := by
  refine ⟨?_, rfl, by norm_num⟩
  norm_num [setParams, sfloatUpdateCost, SFloatCostValue.update,
    SFloatCostValue.set, newSFloatCostValue]

end Setpso
